import Mathlib

/-!
Verification of the text-normalization and phonemization pipeline of
`src/examples/extension/src/background.js` (the kokoro phonemize core).

Strings are modelled as `List Char`.  Each regex-replace pass of the source
is embedded as an executable scanner over the character list; the scanners
follow the JavaScript regex semantics (leftmost match, greedy quantifiers
with the backtracking outcomes worked out per pattern, lookarounds reading
the original string, global continuation after each match).
-/

set_option maxRecDepth 10000

/-- JavaScript whitespace class `\s`. -/
def jsIsSpace (c : Char) : Bool :=
  c = ' ' || c = '\t' || c = '\n' || c = '\r' || c = '\x0b' || c = '\x0c' ||
  c = '\u00A0' || c = '\u1680' || ('\u2000' ≤ c && c ≤ '\u200A') ||
  c = '\u2028' || c = '\u2029' || c = '\u202F' || c = '\u205F' ||
  c = '\u3000' || c = '\uFEFF'

def isDigit (c : Char) : Bool := '0' ≤ c && c ≤ '9'
def isUpperAZ (c : Char) : Bool := 'A' ≤ c && c ≤ 'Z'
def isLowerAZ (c : Char) : Bool := 'a' ≤ c && c ≤ 'z'
def isLetterAZ (c : Char) : Bool := isUpperAZ c || isLowerAZ c

/-- JavaScript regex word character (for `\b`). -/
def isWordChar (c : Char) : Bool := isLetterAZ c || isDigit c || c = '_'

/-- The apostrophe character. -/
def apoc : Char := Char.ofNat 39

/-- `const PUNCTUATION = ';:,.!?¡¿—…"«»“”(){}[]'` (line 167). -/
def PUNCTUATION : List Char := ";:,.!?¡¿—…\"«»“”()\x7b\x7d[]".toList

def isPunct (c : Char) : Bool := c ∈ PUNCTUATION

def isWSorP (c : Char) : Bool := jsIsSpace c || isPunct c

/-- A chunk produced by `split` (source `{match, text}`; `match` is a Lean
keyword, hence the field name `matched`). -/
structure Segment where
  matched : Bool
  text : List Char
deriving DecidableEq

/-- The loop body of `split` (lines 14-31): `prev` is the cursor, the list
holds the `matchAll` results as (index, full match text) pairs. -/
def splitGo (text : List Char) : Nat → List (Nat × List Char) → List Segment
  | prev, [] =>
    if prev < text.length then [⟨false, text.drop prev⟩] else []
  | prev, (idx, fm) :: rest =>
    (if prev < idx then [⟨false, (text.drop prev).take (idx - prev)⟩] else []) ++
    (if 0 < fm.length then [⟨true, fm⟩] else []) ++
    splitGo text (idx + fm.length) rest

/-- `split(text, regex)` (lines 14-31), applied to a list of matches. -/
def split (text : List Char) (ms : List (Nat × List Char)) : List Segment :=
  splitGo text 0 ms

/-- Well-formedness of a `matchAll` result list, starting from cursor
position `prev`: indices are ordered past the cursor, each match lies inside
the text, and each match text is the slice of the text at its index.  Every
JavaScript global regex yields matches of this shape. -/
def validMatchesFrom (text : List Char) : Nat → List (Nat × List Char) → Bool
  | _, [] => true
  | prev, (idx, fm) :: rest =>
    decide (prev ≤ idx) && decide (idx + fm.length ≤ text.length) &&
    decide (fm = (text.drop idx).take fm.length) &&
    validMatchesFrom text (idx + fm.length) rest

def joinTexts (ss : List Segment) : List Char := (ss.map Segment.text).flatten

/-- `matchAll` for `PUNCTUATION_PATTERN = ((\s*[punct]+\s*)+)g` (line 168):
the matches are exactly the maximal runs of whitespace-or-punctuation
characters that contain at least one punctuation character.  Fueled so that
the kernel can evaluate it; the fuel `length + 1` always suffices. -/
def findRunsF : Nat → List Char → Nat → List (Nat × List Char)
  | 0, _, _ => []
  | fuel + 1, l, i =>
    match l with
    | [] => []
    | c :: cs =>
      if isWSorP c then
        let run := c :: cs.takeWhile isWSorP
        let rest := cs.dropWhile isWSorP
        (if run.any isPunct then [(i, run)] else []) ++
          findRunsF fuel rest (i + run.length)
      else
        findRunsF fuel cs (i + 1)

def punctMatchAll (text : List Char) : List (Nat × List Char) :=
  findRunsF (text.length + 1) text 0

theorem validMatchesFrom_cons {text : List Char} {prev idx : Nat} {fm : List Char}
    {rest : List (Nat × List Char)} :
    validMatchesFrom text prev ((idx, fm) :: rest) = true ↔
      prev ≤ idx ∧ idx + fm.length ≤ text.length ∧
      fm = (text.drop idx).take fm.length ∧
      validMatchesFrom text (idx + fm.length) rest = true := by
  simp [validMatchesFrom, Bool.and_eq_true, decide_eq_true_eq, and_assoc]

theorem validMatchesFrom_mono {text : List Char} {prev prev' : Nat}
    {ms : List (Nat × List Char)} (h : prev' ≤ prev)
    (hv : validMatchesFrom text prev ms = true) :
    validMatchesFrom text prev' ms = true := by
  match ms with
  | [] => simp [validMatchesFrom]
  | (idx, fm) :: rest =>
    rw [validMatchesFrom_cons] at hv ⊢
    exact ⟨Nat.le_trans h hv.1, hv.2.1, hv.2.2.1, hv.2.2.2⟩

theorem splitGo_join (text : List Char) :
    ∀ ms prev, validMatchesFrom text prev ms = true →
      joinTexts (splitGo text prev ms) = text.drop prev := by
  intro ms
  induction ms with
  | nil =>
    intro prev _
    by_cases h : prev < text.length
    · simp [splitGo, joinTexts, h]
    · simp only [splitGo, if_neg h, joinTexts, List.map_nil, List.flatten_nil]
      exact (List.drop_eq_nil_iff.mpr (Nat.le_of_not_lt h)).symm
  | cons m rest ih =>
    obtain ⟨idx, fm⟩ := m
    intro prev h
    rw [validMatchesFrom_cons] at h
    obtain ⟨h1, h2, h3, h4⟩ := h
    have hrest := ih (idx + fm.length) h4
    simp only [splitGo, joinTexts, List.map_append, List.flatten_append] at hrest ⊢
    rw [hrest]
    have key2 : text.drop idx = fm ++ text.drop (idx + fm.length) := by
      conv_lhs => rw [← List.take_append_drop fm.length (text.drop idx)]
      rw [List.drop_drop, ← h3]
    have key1 : text.drop prev =
        (text.drop prev).take (idx - prev) ++ text.drop idx := by
      conv_lhs => rw [← List.take_append_drop (idx - prev) (text.drop prev)]
      rw [List.drop_drop]
      congr 2
      omega
    have e1 : (List.map Segment.text
        (if prev < idx then [⟨false, (text.drop prev).take (idx - prev)⟩] else [])).flatten
        = (text.drop prev).take (idx - prev) := by
      by_cases hlt : prev < idx
      · simp [hlt]
      · have hz : idx - prev = 0 := by omega
        simp [hlt, hz]
    have e2 : (List.map Segment.text
        (if 0 < fm.length then [(⟨true, fm⟩ : Segment)] else [])).flatten = fm := by
      by_cases hfm : 0 < fm.length
      · simp [hfm]
      · have hz : fm = [] := List.eq_nil_of_length_eq_zero (by omega)
        simp [hfm, hz]
    rw [e1, e2, List.append_assoc, ← key2, ← key1]

theorem findRunsF_valid (text : List Char) :
    ∀ fuel l i, text.drop i = l →
      validMatchesFrom text i (findRunsF fuel l i) = true := by
  intro fuel
  induction fuel with
  | zero => intro l i _; simp [findRunsF, validMatchesFrom]
  | succ fuel ih =>
    intro l i hl
    match l with
    | [] => simp [findRunsF, validMatchesFrom]
    | c :: cs =>
      have hlen : text.length = i + (cs.length + 1) := by
        have := congrArg List.length hl
        simp only [List.length_drop, List.length_cons] at this
        have hi : i ≤ text.length := by
          by_contra hcon
          rw [List.drop_eq_nil_iff.mpr (by omega)] at hl
          exact List.noConfusion hl
        omega
      have hsplit : cs.takeWhile isWSorP ++ cs.dropWhile isWSorP = cs :=
        List.takeWhile_append_dropWhile isWSorP cs
      have hdw : List.drop (cs.takeWhile isWSorP).length cs = cs.dropWhile isWSorP := by
        have h5 := List.drop_left (cs.takeWhile isWSorP) (cs.dropWhile isWSorP)
        rw [hsplit] at h5
        exact h5
      by_cases hc : isWSorP c = true
      · have hrest : text.drop (i + (c :: cs.takeWhile isWSorP).length) =
            cs.dropWhile isWSorP := by
          rw [← List.drop_drop, hl]
          simp only [List.length_cons, List.drop_succ_cons]
          exact hdw
        have hrec := ih (cs.dropWhile isWSorP) (i + (c :: cs.takeWhile isWSorP).length) hrest
        by_cases hp : (c :: cs.takeWhile isWSorP).any isPunct = true
        · simp only [findRunsF, if_pos hc, if_pos hp, List.singleton_append]
          rw [validMatchesFrom_cons]
          refine ⟨Nat.le_refl i, ?_, ?_, hrec⟩
          · have := (List.takeWhile_sublist (p := isWSorP) (l := cs)).length_le
            simp only [List.length_cons]
            omega
          · rw [hl]
            have hpre : (c :: cs.takeWhile isWSorP) <+: (c :: cs) :=
              ⟨cs.dropWhile isWSorP, by simp [hsplit]⟩
            exact List.prefix_iff_eq_take.mp hpre
        · simp only [findRunsF, if_pos hc, if_neg hp, List.nil_append]
          exact validMatchesFrom_mono (Nat.le_add_right _ _) hrec
      · simp only [findRunsF, if_neg hc]
        have hcs : text.drop (i + 1) = cs := by
          rw [← List.drop_drop, hl]
          rfl
        exact validMatchesFrom_mono (Nat.le_add_right _ _) (ih cs (i + 1) hcs)

/-! ## Number parsing and printing (JS `Number`, `parseInt`, template `${n}`) -/

def digitsVal (l : List Char) : Nat :=
  l.foldl (fun acc c => acc * 10 + (c.toNat - 48)) 0

def trimJS (l : List Char) : List Char :=
  ((l.dropWhile jsIsSpace).reverse.dropWhile jsIsSpace).reverse

/-- `Number(s)` restricted to the integral values that can arise at the call
sites (signed decimal digit strings; `""` is 0); anything else is NaN
(`none`). -/
def jsNumberInt (l : List Char) : Option Int :=
  let t := trimJS l
  if t = [] then some 0
  else match t with
    | '-' :: r => if r ≠ [] ∧ r.all isDigit then some (-(Int.ofNat (digitsVal r))) else none
    | '+' :: r => if r ≠ [] ∧ r.all isDigit then some (Int.ofNat (digitsVal r)) else none
    | r => if r.all isDigit then some (Int.ofNat (digitsVal r)) else none

/-- `parseInt(s, 10)`: skip whitespace, optional sign, then the maximal run
of leading digits; NaN (`none`) when there is no digit. -/
def parseIntInt (l : List Char) : Option Int :=
  let t := l.dropWhile jsIsSpace
  match t with
  | '-' :: r =>
    let ds := r.takeWhile isDigit
    if ds = [] then none else some (-(Int.ofNat (digitsVal ds)))
  | '+' :: r =>
    let ds := r.takeWhile isDigit
    if ds = [] then none else some (Int.ofNat (digitsVal ds))
  | r =>
    let ds := r.takeWhile isDigit
    if ds = [] then none else some (Int.ofNat (digitsVal ds))

def digitChar (n : Nat) : Char := Char.ofNat (48 + n)

def natDigitsF : Nat → Nat → List Char
  | 0, _ => []
  | fuel + 1, n =>
    if n < 10 then [digitChar n]
    else natDigitsF fuel (n / 10) ++ [digitChar (n % 10)]

def natDigits (n : Nat) : List Char := natDigitsF (n + 1) n

/-- Template interpolation `${x}` of a number value (`NaN` prints as "NaN"). -/
def numStr : Option Int → List Char
  | none => "NaN".toList
  | some v => if v < 0 then '-' :: natDigits v.natAbs else natDigits v.natAbs

/-- `isNaN(Number(s))` is false: the decimal number literals reachable from
the currency matcher (digits with an optional fraction, optional sign,
empty string). -/
def jsNumberValid (l : List Char) : Bool :=
  let t := trimJS l
  if t = [] then true
  else
    let u := match t with
      | '-' :: r => r
      | '+' :: r => r
      | r => r
    let a := u.takeWhile isDigit
    match u.drop a.length with
    | [] => !(a = [])
    | '.' :: r2 => (!(a = []) || !(r2 = [])) && r2.all isDigit
    | _ => false

def splitOnChar (sep : Char) : List Char → List (List Char)
  | [] => [[]]
  | c :: rest =>
    if c = sep then [] :: splitOnChar sep rest
    else
      match splitOnChar sep rest with
      | [] => [[c]]
      | p :: ps => (c :: p) :: ps

/-! ## The numeric expanders (lines 38-94) -/

def optLt (o : Option Int) (b : Int) : Bool :=
  match o with
  | some v => decide (v < b)
  | none => false

def optBetween (o : Option Int) (lo hi : Int) : Bool :=
  match o with
  | some v => decide (lo ≤ v) && decide (v ≤ hi)
  | none => false

/-- `split_num` (lines 38-65). -/
def split_num (m : List Char) : List Char :=
  if '.' ∈ m then m
  else if ':' ∈ m then
    let parts := splitOnChar ':' m
    let h := jsNumberInt (parts.headD [])
    let mm := jsNumberInt (parts.tail.headD [])
    if mm = some 0 then numStr h ++ " o'clock".toList
    else if optLt mm 10 then
      numStr h ++ " oh ".toList ++ numStr mm
    else numStr h ++ [' '] ++ numStr mm
  else
    let year := parseIntInt (m.take 4)
    if optLt year 1100 || optLt (year.map (fun y => y.tmod 1000)) 10 then m
    else
      let left := m.take 2
      let right := parseIntInt ((m.drop 2).take 2)
      let suffix := if m.getLast? = some 's' then ['s'] else []
      if optBetween (year.map (fun y => y.tmod 1000)) 100 999 then
        if right = some 0 then left ++ " hundred".toList ++ suffix
        else if optLt right 10 then
          left ++ " oh ".toList ++ numStr right ++ suffix
        else left ++ [' '] ++ numStr right ++ suffix
      else left ++ [' '] ++ numStr right ++ suffix

/-- `flip_money` (lines 72-84). -/
def flip_money (m : List Char) : List Char :=
  let bill := if m.head? = some '$' then "dollar".toList else "pound".toList
  let slice := m.tail
  if !(jsNumberValid slice) then slice ++ [' '] ++ bill ++ ['s']
  else if !('.' ∈ m) then
    let suffix := if slice = ['1'] then [] else ['s']
    slice ++ [' '] ++ bill ++ suffix
  else
    let b := slice.takeWhile (fun c => !(c = '.'))
    let c := (slice.drop (b.length + 1)).takeWhile (fun c => !(c = '.'))
    let d := parseIntInt (if c.length < 2 then c ++ List.replicate (2 - c.length) '0' else c)
    let coins :=
      if m.head? = some '$' then (if d = some 1 then "cent".toList else "cents".toList)
      else (if d = some 1 then "penny".toList else "pence".toList)
    b ++ [' '] ++ bill ++ (if b = ['1'] then [] else ['s']) ++
      " and ".toList ++ numStr d ++ [' '] ++ coins

def spaceOut : List Char → List Char
  | [] => []
  | [c] => [c]
  | c :: rest => c :: ' ' :: spaceOut rest

/-- `point_num` (lines 91-94): `b.split("").join(" ")` spaces out the
fraction digits individually. -/
def point_num (m : List Char) : List Char :=
  let a := m.takeWhile (fun c => !(c = '.'))
  let b := (m.drop (a.length + 1)).takeWhile (fun c => !(c = '.'))
  a ++ " point ".toList ++ spaceOut b

/-! ## Generic regex-replace scanner

`scanReplF f fuel prev l` models `String.prototype.replace` with a global
pattern: `f prev l` decides whether a match starts at the current position
(`prev` holds the already-scanned original characters in reverse, for
lookbehinds) and returns the consumed length together with the replacement.
Matching always reads the original characters; scanning resumes after each
match (after a zero-length match the next character is consumed, as the JS
engine bumps `lastIndex`). -/

def scanReplF (f : List Char → List Char → Option (Nat × List Char)) :
    Nat → List Char → List Char → List Char
  | 0, _, l => l
  | fuel + 1, prev, l =>
    match l with
    | [] =>
      match f prev [] with
      | some (_, repl) => repl
      | none => []
    | c :: rest =>
      match f prev (c :: rest) with
      | some (k, repl) =>
        if k = 0 then repl ++ c :: scanReplF f fuel (c :: prev) rest
        else repl ++ scanReplF f fuel (((c :: rest).take k).reverse ++ prev) ((c :: rest).drop k)
      | none => c :: scanReplF f fuel (c :: prev) rest

def scanRepl (f : List Char → List Char → Option (Nat × List Char))
    (l : List Char) : List Char :=
  scanReplF f (l.length + 1) [] l

/-- Single-character global substitution (`.replace(/a/g, "b")`). -/
def charSub (a b : Char) (l : List Char) : List Char :=
  l.map (fun c => if c = a then b else c)

/-- Character-class global substitution (`.replace(/[...]/g, "b")`). -/
def charClassSub (p : Char → Bool) (b : Char) (l : List Char) : List Char :=
  l.map (fun c => if p c then b else c)

/-- Single-character to string global substitution (`.replace(/a/g, "xy")`). -/
def charStrSub (a : Char) (r : List Char) : List Char → List Char
  | [] => []
  | c :: rest => (if c = a then r else [c]) ++ charStrSub a r rest

/-- `.replace(/  +/, " ")` (line 123) — NO `g` flag: only the first maximal
run of two or more spaces is collapsed to a single space. -/
def collapseFirst : List Char → List Char
  | [] => []
  | c :: rest =>
    if c = ' ' ∧ rest.head? = some ' ' then ' ' :: rest.dropWhile (fun x => x = ' ')
    else c :: collapseFirst rest

/-- Word-boundary test for a `\b` directly before the current position
(`prev` is reversed; the upcoming character is a word character). -/
def wordBoundary (prev : List Char) : Bool :=
  match prev.head? with
  | none => true
  | some p => !(isWordChar p)

/-- `\b` after a word character: the rest of the input must not start with
a word character. -/
def boundaryAfter (l : List Char) : Bool :=
  match l.head? with
  | none => true
  | some c => !(isWordChar c)

def toLowerJS (c : Char) : Char :=
  if isUpperAZ c then Char.ofNat (c.toNat + 32) else c

/-! ## Matchers for the normalize passes (lines 122-150) -/

/-- `(?<=\n) +(?=\n)` → "" (line 124). -/
def matchLineWS (prev l : List Char) : Option (Nat × List Char) :=
  if prev.head? = some '\n' then
    let sp := l.takeWhile (fun c => c = ' ')
    if !(sp = []) ∧ (l.drop sp.length).head? = some '\n' then some (sp.length, [])
    else none
  else none

/-- `\bD[Rr]\.(?= [A-Z])` → "Doctor" (line 127). -/
def matchDr (prev l : List Char) : Option (Nat × List Char) :=
  match l with
  | c0 :: c1 :: c2 :: c3 :: c4 :: _ =>
    if c0 = 'D' ∧ (c1 = 'R' ∨ c1 = 'r') ∧ c2 = '.' ∧ wordBoundary prev = true ∧
        c3 = ' ' ∧ isUpperAZ c4 = true
    then some (3, "Doctor".toList) else none
  | _ => none

/-- `\b(?:Mr\.|MR\.(?= [A-Z]))` → "Mister" (line 128). -/
def matchMr (prev l : List Char) : Option (Nat × List Char) :=
  match l with
  | c0 :: c1 :: c2 :: rest =>
    if c0 = 'M' ∧ wordBoundary prev = true then
      if c1 = 'r' ∧ c2 = '.' then some (3, "Mister".toList)
      else if c1 = 'R' ∧ c2 = '.' then
        match rest with
        | c3 :: c4 :: _ =>
          if c3 = ' ' ∧ isUpperAZ c4 = true then some (3, "Mister".toList) else none
        | _ => none
      else none
    else none
  | _ => none

/-- `\b(?:Ms\.|MS\.(?= [A-Z]))` → "Miss" (line 129). -/
def matchMs (prev l : List Char) : Option (Nat × List Char) :=
  match l with
  | c0 :: c1 :: c2 :: rest =>
    if c0 = 'M' ∧ wordBoundary prev = true then
      if c1 = 's' ∧ c2 = '.' then some (3, "Miss".toList)
      else if c1 = 'S' ∧ c2 = '.' then
        match rest with
        | c3 :: c4 :: _ =>
          if c3 = ' ' ∧ isUpperAZ c4 = true then some (3, "Miss".toList) else none
        | _ => none
      else none
    else none
  | _ => none

/-- `\b(?:Mrs\.|MRS\.(?= [A-Z]))` → "Mrs" (line 130). -/
def matchMrs (prev l : List Char) : Option (Nat × List Char) :=
  match l with
  | c0 :: c1 :: c2 :: c3 :: rest =>
    if c0 = 'M' ∧ wordBoundary prev = true then
      if c1 = 'r' ∧ c2 = 's' ∧ c3 = '.' then some (4, "Mrs".toList)
      else if c1 = 'R' ∧ c2 = 'S' ∧ c3 = '.' then
        match rest with
        | c4 :: c5 :: _ =>
          if c4 = ' ' ∧ isUpperAZ c5 = true then some (4, "Mrs".toList) else none
        | _ => none
      else none
    else none
  | _ => none

/-- `\betc\.(?! [A-Z])` (case-insensitive) → "etc" (line 131). -/
def matchEtc (prev l : List Char) : Option (Nat × List Char) :=
  match l with
  | c0 :: c1 :: c2 :: c3 :: rest =>
    if wordBoundary prev = true ∧ toLowerJS c0 = 'e' ∧ toLowerJS c1 = 't' ∧
        toLowerJS c2 = 'c' ∧ c3 = '.' ∧
        !(match rest with | r0 :: r1 :: _ => r0 = ' ' ∧ isUpperAZ r1 = true | _ => False)
    then some (4, "etc".toList) else none
  | _ => none

/-- `\b(y)eah?\b` (case-insensitive) → "$1e'a" (line 134). -/
def matchYeah (prev l : List Char) : Option (Nat × List Char) :=
  match l with
  | c0 :: c1 :: c2 :: rest =>
    if wordBoundary prev = true ∧ toLowerJS c0 = 'y' ∧ toLowerJS c1 = 'e' ∧
        toLowerJS c2 = 'a' then
      match rest with
      | r0 :: rest2 =>
        if toLowerJS r0 = 'h' then
          if boundaryAfter rest2 = true then some (4, c0 :: "e'a".toList) else none
        else if !(isWordChar r0) then some (3, c0 :: "e'a".toList) else none
      | [] => some (3, c0 :: "e'a".toList)
    else none
  | _ => none

/-- Alternative `\d*\.\d+` of the numeric pattern (lines 137 and 140):
returns the matched text. -/
def matchNumA (l : List Char) : Option (List Char) :=
  let d1 := l.takeWhile isDigit
  match l.drop d1.length with
  | c :: r2 =>
    if c = '.' then
      let d2 := r2.takeWhile isDigit
      if d2 = [] then none else some (d1 ++ '.' :: d2)
    else none
  | [] => none

/-- Alternative `\b\d{4}s?\b` of the numeric pattern (line 137). -/
def matchNumB (prev l : List Char) : Option (List Char) :=
  match l with
  | c0 :: c1 :: c2 :: c3 :: rest =>
    if wordBoundary prev = true ∧ isDigit c0 = true ∧ isDigit c1 = true ∧
        isDigit c2 = true ∧ isDigit c3 = true then
      match rest with
      | [] => some [c0, c1, c2, c3]
      | r0 :: rest2 =>
        if r0 = 's' then
          if boundaryAfter rest2 = true then some [c0, c1, c2, c3, 's'] else none
        else if !(isWordChar r0) then some [c0, c1, c2, c3] else none
    else none
  | _ => none

def prevDigit (prev : List Char) : Bool :=
  match prev.head? with
  | some p => isDigit p
  | none => false

/-- Tail `:[0-5]\d\b(?!:)` of the time alternative. -/
def timeTail : List Char → Option (List Char)
  | c0 :: c1 :: c2 :: rest =>
    if c0 = ':' ∧ ('0' ≤ c1 ∧ c1 ≤ '5') ∧ isDigit c2 = true ∧
        (match rest with
         | [] => true
         | r :: _ => !(isWordChar r) && !(r = ':')) = true
    then some [c0, c1, c2] else none
  | _ => none

/-- Alternative `(?<!:)\b(?:[1-9]|1[0-2]):[0-5]\d\b(?!:)` of the numeric
pattern (line 137); `[1-9]` is tried before `1[0-2]`. -/
def matchNumC (prev l : List Char) : Option (List Char) :=
  if wordBoundary prev = true ∧ !(prev.head? = some ':') then
    match l with
    | c0 :: rest =>
      if isDigit c0 = true ∧ !(c0 = '0') then
        match timeTail rest with
        | some tail => some (c0 :: tail)
        | none =>
          if c0 = '1' then
            match rest with
            | c1 :: rest2 =>
              if c1 = '0' ∨ c1 = '1' ∨ c1 = '2' then
                (timeTail rest2).map (fun tail => c0 :: c1 :: tail)
              else none
            | [] => none
          else none
      else none
    | [] => none
  else none

/-- The full numeric pass `.replace(/\d*\.\d+|\b\d{4}s?\b|...time.../g,
split_num)` (line 137). -/
def matchSplitNumPass (prev l : List Char) : Option (Nat × List Char) :=
  match matchNumA l with
  | some m => some (m.length, split_num m)
  | none =>
    match matchNumB prev l with
    | some m => some (m.length, split_num m)
    | none => (matchNumC prev l).map (fun m => (m.length, split_num m))

/-- `(?<=\d),(?=\d)` → "" (line 138). -/
def matchCommaDigit (prev l : List Char) : Option (Nat × List Char) :=
  match l with
  | c0 :: c1 :: _ =>
    if c0 = ',' ∧ prevDigit prev = true ∧ isDigit c1 = true
    then some (1, []) else none
  | _ => none

def magWords : List (List Char) :=
  [" hundred".toList, " thousand".toList, " billion".toList,
   " million".toList, " trillion".toList]

def startsWithCI : List Char → List Char → Bool
  | [], _ => true
  | _ :: _, [] => false
  | p :: ps, c :: cs => p = toLowerJS c && startsWithCI ps cs

def findMag (l : List Char) : Option Nat :=
  (magWords.find? (fun w => startsWithCI w l)).map List.length

def takeMagsF : Nat → List Char → List Nat
  | 0, _ => []
  | fuel + 1, l =>
    match findMag l with
    | some n => n :: takeMagsF fuel (l.drop n)
    | none => []

/-- Greedy run of `(?: hundred| thousand| (?:[bm]|tr)illion)*`
(case-insensitive); returns the consumed token lengths in order. -/
def takeMags (l : List Char) : List Nat := takeMagsF (l.length + 1) l

/-- The currency pass
`.replace(/[$£]\d+(?:\.\d+)?(?: hundred| thousand| (?:[bm]|tr)illion)*\b|[$£]\d+\.\d\d?\b/gi, flip_money)`
(line 139).  The backtracking of the first alternative resolves to: take the
greedy fraction and magnitude run; if the trailing `\b` fails, drop the last
magnitude token (the following space then provides the boundary), else drop
the fraction (the `.` provides the boundary); if there is neither, the
character after the digits is a word character and the second alternative
(which needs the same `\.`) cannot match either. -/
def matchFlipMoney (_prev l : List Char) : Option (Nat × List Char) :=
  match l with
  | c0 :: rest =>
    if c0 = '$' ∨ c0 = '£' then
      let d := rest.takeWhile isDigit
      if d = [] then none
      else
        let afterD := rest.drop d.length
        let fracLen :=
          match afterD with
          | '.' :: r2 =>
            let f := r2.takeWhile isDigit
            if f = [] then 0 else f.length + 1
          | _ => 0
        let afterF := afterD.drop fracLen
        let mags := takeMags afterF
        let magLen := mags.sum
        let afterM := afterF.drop magLen
        if boundaryAfter afterM = true then
          some (1 + d.length + fracLen + magLen,
            flip_money (l.take (1 + d.length + fracLen + magLen)))
        else if !(mags = []) then
          some (1 + d.length + fracLen + magLen - mags.getLastD 0,
            flip_money (l.take (1 + d.length + fracLen + magLen - mags.getLastD 0)))
        else if !(fracLen = 0) then
          some (1 + d.length, flip_money (l.take (1 + d.length)))
        else none
    else none
  | [] => none

/-- The decimal pass `.replace(/\d*\.\d+/g, point_num)` (line 140). -/
def matchPointNum (_prev l : List Char) : Option (Nat × List Char) :=
  (matchNumA l).map (fun m => (m.length, point_num m))

/-- `(?<=\d)-(?=\d)` → " to " (line 141). -/
def matchHyphen (prev l : List Char) : Option (Nat × List Char) :=
  match l with
  | c0 :: c1 :: _ =>
    if c0 = '-' ∧ prevDigit prev = true ∧ isDigit c1 = true
    then some (1, " to ".toList) else none
  | _ => none

/-- `(?<=\d)S` → " S" (line 142). -/
def matchDigitS (prev l : List Char) : Option (Nat × List Char) :=
  match l with
  | c0 :: _ =>
    if c0 = 'S' ∧ prevDigit prev = true
    then some (1, " S".toList) else none
  | [] => none

def isConsUpper (c : Char) : Bool :=
  isUpperAZ c && !(c = 'A') && !(c = 'E') && !(c = 'I') && !(c = 'O') && !(c = 'U')

/-- `(?<=[BCDFGHJ-NP-TV-Z])'?s\b` → "'S" (line 145). -/
def prevConsUpper (prev : List Char) : Bool :=
  match prev.head? with
  | some p => isConsUpper p
  | none => false

def matchApS (prev l : List Char) : Option (Nat × List Char) :=
  if prevConsUpper prev = true then
    match l with
    | c0 :: rest =>
      if c0 = apoc then
        match rest with
        | c1 :: rest2 =>
          if c1 = 's' ∧ boundaryAfter rest2 = true then some (2, "'S".toList) else none
        | [] => none
      else if c0 = 's' ∧ boundaryAfter rest = true then some (1, "'S".toList)
      else none
    | [] => none
  else none

/-- `(?<=X')S\b` → "s" (line 146). -/
def matchXS (prev l : List Char) : Option (Nat × List Char) :=
  match l with
  | c0 :: rest =>
    if c0 = 'S' ∧ boundaryAfter rest = true ∧
        (match prev with | p0 :: p1 :: _ => p0 = apoc && p1 = 'X' | _ => false) = true
    then some (1, ['s']) else none
  | [] => none

/-- Number of leading `[A-Za-z]\.` groups. -/
def countPairs : List Char → Nat
  | c0 :: c1 :: rest =>
    if isLetterAZ c0 = true ∧ c1 = '.' then countPairs rest + 1 else 0
  | _ => 0

/-- `(?:[A-Za-z]\.){2,} [a-z]` with callback `m => m.replace(/\./g, "-")`
(line 149). -/
def matchAcr (_prev l : List Char) : Option (Nat × List Char) :=
  let k := countPairs l
  if 2 ≤ k then
    match l.drop (2 * k) with
    | s :: c :: _ =>
      if s = ' ' ∧ isLowerAZ c = true then
        some (2 * k + 2, (l.take (2 * k + 2)).map (fun x => if x = '.' then '-' else x))
      else none
    | _ => none
  else none

/-- `(?<=[A-Z])\.(?=[A-Z])` with `i` flag (so any ASCII letter) → "-"
(line 150). -/
def matchDotLetters (prev l : List Char) : Option (Nat × List Char) :=
  match l with
  | c0 :: c1 :: _ =>
    if c0 = '.' ∧ isLetterAZ c1 = true ∧
        (match prev.head? with | some p => isLetterAZ p | none => false) = true
    then some (1, ['-']) else none
  | _ => none

/-- `normalize_text` (lines 101-155): the full ordered pass pipeline. -/
def normalize_text (text : List Char) : List Char :=
  let s := charClassSub (fun c => c = '‘' || c = '’') apoc text
  let s := charSub '«' '“' s
  let s := charSub '»' '”' s
  let s := charClassSub (fun c => c = '“' || c = '”') '"' s
  let s := charSub '(' '«' s
  let s := charSub ')' '»' s
  let s := charStrSub '、' ", ".toList s
  let s := charStrSub '。' ". ".toList s
  let s := charStrSub '！' "! ".toList s
  let s := charStrSub '，' ", ".toList s
  let s := charStrSub '：' ": ".toList s
  let s := charStrSub '；' "; ".toList s
  let s := charStrSub '？' "? ".toList s
  let s := charClassSub (fun c => jsIsSpace c && !(c = ' ') && !(c = '\n')) ' ' s
  let s := collapseFirst s
  let s := scanRepl matchLineWS s
  let s := scanRepl matchDr s
  let s := scanRepl matchMr s
  let s := scanRepl matchMs s
  let s := scanRepl matchMrs s
  let s := scanRepl matchEtc s
  let s := scanRepl matchYeah s
  let s := scanRepl matchSplitNumPass s
  let s := scanRepl matchCommaDigit s
  let s := scanRepl matchFlipMoney s
  let s := scanRepl matchPointNum s
  let s := scanRepl matchHyphen s
  let s := scanRepl matchDigitS s
  let s := scanRepl matchApS s
  let s := scanRepl matchXS s
  let s := scanRepl matchAcr s
  let s := scanRepl matchDotLetters s
  trimJS s

/-! ## The phonemize orchestrator (lines 177-207) -/

/-- Chunking step of `phonemize` (line 184):
`split(text, PUNCTUATION_PATTERN)`. -/
def chunkText (t : List Char) : List Segment := split t (punctMatchAll t)

/-- `const lang = language === "a" ? "en-us" : "en"` (line 187). -/
def langOf (language : List Char) : List Char :=
  if language = ['a'] then "en-us".toList else "en".toList

/-- `arr.join(" ")`. -/
def joinSpace : List (List Char) → List Char
  | [] => []
  | [x] => x
  | x :: xs => x ++ ' ' :: joinSpace xs

/-- Line 188: every section is converted (punctuation passes through, content
goes to the backend `espeakng(text, lang)` whose result array is joined with
a space); the results are concatenated in section order with no separator.
`Promise.all` rejection propagation is modelled by `Option`. -/
def convertSections (backend : List Char → List Char → Option (List (List Char)))
    (lang : List Char) : List Segment → Option (List Char)
  | [] => some []
  | s :: rest =>
    match (if s.matched then some s.text else (backend s.text lang).map joinSpace),
        convertSections backend lang rest with
    | some h, some t => some (h ++ t)
    | _, _ => none

/-- Literal global string replacement (`.replace(/lit/g, rep)` for a literal
pattern). -/
def matchLit (pat rep : List Char) (_prev l : List Char) : Option (Nat × List Char) :=
  if !(pat = []) ∧ pat.isPrefixOf l then some (pat.length, rep) else none

def hundredTarget : List Char := "hˈʌndɹɪd".toList

/-- `(?<=[a-zɹː])(?=hˈʌndɹɪd)` → " " (line 199): zero-length match, inserts
a space. -/
def matchHundred (prev l : List Char) : Option (Nat × List Char) :=
  if (match prev.head? with
      | some p => isLowerAZ p || p = 'ɹ' || p = 'ː'
      | none => false) = true ∧ hundredTarget.isPrefixOf l
  then some (0, [' ']) else none

def zPunct : List Char := ";:,.!?¡¿—…\"«»“” ".toList

/-- `/ z(?=[;:,.!?¡¿—…"«»“” ]|$)/g` → "z" (line 200): removes the space
before a trailing z-sound. -/
def matchZ (_prev l : List Char) : Option (Nat × List Char) :=
  match l with
  | c0 :: c1 :: rest =>
    if c0 = ' ' ∧ c1 = 'z' ∧
        (match rest with | [] => true | r :: _ => r ∈ zPunct) = true
    then some (2, ['z']) else none
  | _ => none

/-- "nˈaɪn" reversed, for the lookbehind of the American-only rule. -/
def tiBehind : List Char := ['n', 'ɪ', 'a', 'ˈ', 'n']

/-- `(?<=nˈaɪn)ti(?!ː)` → "di" (line 204, American English only). -/
def matchTi (prev l : List Char) : Option (Nat × List Char) :=
  match l with
  | c0 :: c1 :: rest =>
    if c0 = 't' ∧ c1 = 'i' ∧ prev.take 5 = tiBehind ∧ !(rest.head? = some 'ː')
    then some (2, "di".toList) else none
  | _ => none

/-- Post-processing of the concatenated phonemes (lines 191-206, including
the final `trim`). -/
def postprocess (language : List Char) (ps : List Char) : List Char :=
  let s := scanRepl (matchLit "kəkˈoːɹoʊ".toList "kˈoʊkəɹoʊ".toList) ps
  let s := scanRepl (matchLit "kəkˈɔːɹəʊ".toList "kˈəʊkəɹəʊ".toList) s
  let s := charSub 'ʲ' 'j' s
  let s := charSub 'r' 'ɹ' s
  let s := charSub 'x' 'k' s
  let s := charSub 'ɬ' 'l' s
  let s := scanRepl matchHundred s
  let s := scanRepl matchZ s
  let s := if language = ['a'] then scanRepl matchTi s else s
  trimJS s

/-- `phonemize(text, language, norm)` (lines 177-207).  The backend is the
external `espeakng` collaborator; failure of any backend call is `none`. -/
def phonemize (backend : List Char → List Char → Option (List (List Char)))
    (text : List Char) (language : List Char) (norm : Bool) : Option (List Char) :=
  let t := if norm then normalize_text text else text
  (convertSections backend (langOf language) (chunkText t)).map (postprocess language)

/-- `p` occurs as a contiguous substring of `l`. -/
def occursIn (p l : List Char) : Bool :=
  p.isPrefixOf l ||
    (match l with
     | [] => false
     | _ :: rest => occursIn p rest)

/-! ## Generic scanner lemmas -/

theorem scanReplF_id (f : List Char → List Char → Option (Nat × List Char))
    (P : Char → Prop)
    (hf : ∀ prev l, (∀ c ∈ prev, P c) → (∀ c ∈ l, P c) → f prev l = none) :
    ∀ fuel prev l, (∀ c ∈ prev, P c) → (∀ c ∈ l, P c) →
      scanReplF f fuel prev l = l := by
  intro fuel
  induction fuel with
  | zero => intro prev l _ _; rfl
  | succ fuel ih =>
    intro prev l hprev hl
    match l with
    | [] => simp only [scanReplF, hf prev [] hprev hl]
    | c :: rest =>
      simp only [scanReplF, hf prev (c :: rest) hprev hl]
      have hc : P c := hl c (List.mem_cons_self c rest)
      have hrest : ∀ x ∈ rest, P x := fun x hx => hl x (List.mem_cons_of_mem c hx)
      have hprev' : ∀ x ∈ c :: prev, P x := by
        intro x hx
        rcases List.mem_cons.mp hx with h | h
        · exact h ▸ hc
        · exact hprev x h
      rw [ih (c :: prev) rest hprev' hrest]

theorem scanRepl_id (f : List Char → List Char → Option (Nat × List Char))
    (P : Char → Prop)
    (hf : ∀ prev l, (∀ c ∈ prev, P c) → (∀ c ∈ l, P c) → f prev l = none)
    (l : List Char) (hl : ∀ c ∈ l, P c) : scanRepl f l = l :=
  scanReplF_id f P hf (l.length + 1) [] l (by intro c h; cases h) hl

theorem scanReplF_mem (f : List Char → List Char → Option (Nat × List Char))
    (Q : Char → Prop)
    (hf : ∀ prev l k r, f prev l = some (k, r) → ∀ c ∈ r, Q c) :
    ∀ fuel prev l c, c ∈ scanReplF f fuel prev l → c ∈ l ∨ Q c := by
  intro fuel
  induction fuel with
  | zero => intro prev l c h; exact Or.inl h
  | succ fuel ih =>
    intro prev l c h
    match l with
    | [] =>
      simp only [scanReplF] at h
      match hm : f prev [] with
      | some (k, repl) =>
        rw [hm] at h
        exact Or.inr (hf prev [] k repl hm c h)
      | none => rw [hm] at h; exact Or.inl h
    | c0 :: rest =>
      simp only [scanReplF] at h
      match hm : f prev (c0 :: rest) with
      | some (k, repl) =>
        rw [hm] at h
        simp only at h
        by_cases hk : k = 0
        · rw [if_pos hk] at h
          rcases List.mem_append.mp h with h | h
          · exact Or.inr (hf prev (c0 :: rest) k repl hm c h)
          · rcases List.mem_cons.mp h with h | h
            · exact Or.inl (h ▸ List.mem_cons_self c0 rest)
            · rcases ih (c0 :: prev) rest c h with h | h
              · exact Or.inl (List.mem_cons_of_mem c0 h)
              · exact Or.inr h
        · rw [if_neg hk] at h
          rcases List.mem_append.mp h with h | h
          · exact Or.inr (hf prev (c0 :: rest) k repl hm c h)
          · rcases ih _ _ c h with h | h
            · exact Or.inl (List.drop_subset k (c0 :: rest) h)
            · exact Or.inr h
      | none =>
        rw [hm] at h
        simp only at h
        rcases List.mem_cons.mp h with h | h
        · exact Or.inl (h ▸ List.mem_cons_self c0 rest)
        · rcases ih (c0 :: prev) rest c h with h | h
          · exact Or.inl (List.mem_cons_of_mem c0 h)
          · exact Or.inr h

theorem scanRepl_mem (f : List Char → List Char → Option (Nat × List Char))
    (Q : Char → Prop)
    (hf : ∀ prev l k r, f prev l = some (k, r) → ∀ c ∈ r, Q c)
    (l : List Char) (c : Char) (h : c ∈ scanRepl f l) : c ∈ l ∨ Q c :=
  scanReplF_mem f Q hf (l.length + 1) [] l c h

/-! ## Identity and membership lemmas for the simple passes -/

theorem charSub_mem {a b c : Char} {l : List Char} (h : c ∈ charSub a b l) :
    (c ∈ l ∧ c ≠ a) ∨ c = b := by
  simp only [charSub, List.mem_map] at h
  obtain ⟨d, hd, hdc⟩ := h
  by_cases hda : d = a
  · rw [hda, if_pos rfl] at hdc
    exact Or.inr hdc.symm
  · rw [if_neg hda] at hdc
    exact Or.inl ⟨hdc ▸ hd, hdc ▸ hda⟩

theorem map_self {f : Char → Char} : ∀ {l : List Char},
    (∀ c ∈ l, f c = c) → l.map f = l := by
  intro l h
  induction l with
  | nil => rfl
  | cons c rest ih =>
    simp only [List.map_cons]
    rw [h c (List.mem_cons_self c rest),
      ih (fun x hx => h x (List.mem_cons_of_mem c hx))]

theorem charSub_eq_self {a b : Char} {l : List Char} (h : a ∉ l) :
    charSub a b l = l := by
  unfold charSub
  apply map_self
  intro c hc
  rw [if_neg]
  intro hca
  exact h (hca ▸ hc)

theorem charClassSub_eq_self {p : Char → Bool} {b : Char} {l : List Char}
    (h : ∀ c ∈ l, p c = false) : charClassSub p b l = l := by
  unfold charClassSub
  exact map_self (fun c hc => by simp [h c hc])

theorem charStrSub_eq_self {a : Char} {r : List Char} {l : List Char}
    (h : a ∉ l) : charStrSub a r l = l := by
  induction l with
  | nil => rfl
  | cons c rest ih =>
    have hca : ¬(c = a) := fun hca => h (hca ▸ List.mem_cons_self c rest)
    simp only [charStrSub, if_neg hca, List.singleton_append]
    rw [ih (fun hm => h (List.mem_cons_of_mem c hm))]

def noDoubleSpace : List Char → Bool
  | [] => true
  | c :: rest =>
    if c = ' ' ∧ rest.head? = some ' ' then false else noDoubleSpace rest

theorem collapseFirst_eq_self {l : List Char} (h : noDoubleSpace l = true) :
    collapseFirst l = l := by
  induction l with
  | nil => rfl
  | cons c rest ih =>
    unfold noDoubleSpace at h
    by_cases hc : c = ' ' ∧ rest.head? = some ' '
    · rw [if_pos hc] at h; cases h
    · rw [if_neg hc] at h
      unfold collapseFirst
      rw [if_neg hc, ih h]

theorem trimJS_eq_self {l : List Char} (hh : ∀ c ∈ l, jsIsSpace c = true → c = ' ')
    (h1 : l.head? ≠ some ' ') (h2 : l.getLast? ≠ some ' ') : trimJS l = l := by
  have hdrop : ∀ (m : List Char), m.head? ≠ some ' ' →
      (∀ c ∈ m, jsIsSpace c = true → c = ' ') → m.dropWhile jsIsSpace = m := by
    intro m hm hc2
    match m with
    | [] => rfl
    | c :: rest =>
      rw [List.dropWhile_cons_of_neg]
      intro hws
      have := hc2 c (List.mem_cons_self c rest) hws
      rw [this] at hm
      exact hm rfl
  rw [trimJS, hdrop l h1 hh]
  have hrev : l.reverse.head? ≠ some ' ' := by
    rw [List.head?_reverse]
    exact h2
  rw [hdrop l.reverse hrev (by intro c hc; exact hh c (List.mem_reverse.mp hc)),
    List.reverse_reverse]

theorem trimJS_subset {l : List Char} {c : Char} (h : c ∈ trimJS l) : c ∈ l := by
  unfold trimJS at h
  rw [List.mem_reverse] at h
  have h1 := (List.dropWhile_sublist (l := (l.dropWhile jsIsSpace).reverse)
    (p := jsIsSpace)).subset h
  rw [List.mem_reverse] at h1
  exact (List.dropWhile_sublist (l := l) (p := jsIsSpace)).subset h1

/-! ## A class of strings on which every normalize pass is the identity:
lowercase ASCII letters without `y`, and single interior spaces. -/

def lcChars : List Char := "abcdefghijklmnopqrstuvwxz ".toList

theorem matchLineWS_none (prev l : List Char)
    (hprev : ∀ c ∈ prev, c ∈ lcChars) : matchLineWS prev l = none := by
  have fact : ∀ c ∈ lcChars, c ≠ '\n' := by decide
  unfold matchLineWS
  rw [if_neg]
  intro hp
  exact fact '\n' (hprev '\n' (List.mem_of_mem_head? hp)) rfl

theorem matchDr_none (prev l : List Char)
    (hl : ∀ c ∈ l, c ∈ lcChars) : matchDr prev l = none := by
  have fact : ∀ c ∈ lcChars, ¬(c = 'D') := by decide
  match l with
  | [] => rfl
  | [_] => rfl
  | [_, _] => rfl
  | [_, _, _] => rfl
  | [_, _, _, _] => rfl
  | c0 :: c1 :: c2 :: c3 :: c4 :: rest =>
    exact if_neg (fun hcond => fact c0 (hl c0 (by simp)) hcond.1)

theorem matchMr_none (prev l : List Char)
    (hl : ∀ c ∈ l, c ∈ lcChars) : matchMr prev l = none := by
  have fact : ∀ c ∈ lcChars, ¬(c = 'M') := by decide
  match l with
  | [] => rfl
  | [_] => rfl
  | [_, _] => rfl
  | c0 :: c1 :: c2 :: rest =>
    exact if_neg (fun hcond => fact c0 (hl c0 (by simp)) hcond.1)

theorem matchMs_none (prev l : List Char)
    (hl : ∀ c ∈ l, c ∈ lcChars) : matchMs prev l = none := by
  have fact : ∀ c ∈ lcChars, ¬(c = 'M') := by decide
  match l with
  | [] => rfl
  | [_] => rfl
  | [_, _] => rfl
  | c0 :: c1 :: c2 :: rest =>
    exact if_neg (fun hcond => fact c0 (hl c0 (by simp)) hcond.1)

theorem matchMrs_none (prev l : List Char)
    (hl : ∀ c ∈ l, c ∈ lcChars) : matchMrs prev l = none := by
  have fact : ∀ c ∈ lcChars, ¬(c = 'M') := by decide
  match l with
  | [] => rfl
  | [_] => rfl
  | [_, _] => rfl
  | [_, _, _] => rfl
  | c0 :: c1 :: c2 :: c3 :: rest =>
    exact if_neg (fun hcond => fact c0 (hl c0 (by simp)) hcond.1)

theorem matchEtc_none (prev l : List Char)
    (hl : ∀ c ∈ l, c ∈ lcChars) : matchEtc prev l = none := by
  have fact : ∀ c ∈ lcChars, ¬(c = '.') := by decide
  match l with
  | [] => rfl
  | [_] => rfl
  | [_, _] => rfl
  | [_, _, _] => rfl
  | c0 :: c1 :: c2 :: c3 :: rest =>
    exact if_neg (fun hcond => fact c3 (hl c3 (by simp)) hcond.2.2.2.2.1)

theorem matchYeah_none (prev l : List Char)
    (hl : ∀ c ∈ l, c ∈ lcChars) : matchYeah prev l = none := by
  have fact : ∀ c ∈ lcChars, ¬(toLowerJS c = 'y') := by decide
  match l with
  | [] => rfl
  | [_] => rfl
  | [_, _] => rfl
  | c0 :: c1 :: c2 :: rest =>
    exact if_neg (fun hcond => fact c0 (hl c0 (by simp)) hcond.2.1)

theorem matchNumA_none (l : List Char)
    (hl : ∀ c ∈ l, c ∈ lcChars) : matchNumA l = none := by
  have fact : ∀ c ∈ lcChars, isDigit c = false := by decide
  have fact2 : ∀ c ∈ lcChars, ¬(c = '.') := by decide
  match l with
  | [] => rfl
  | c0 :: rest =>
    have hd : ¬(isDigit c0 = true) := by
      rw [fact c0 (hl c0 (by simp))]; exact Bool.false_ne_true
    unfold matchNumA
    rw [List.takeWhile_cons_of_neg hd]
    simp only [List.length_nil, List.drop_zero]
    rw [if_neg (fact2 c0 (hl c0 (by simp)))]

theorem matchNumB_none (prev l : List Char)
    (hl : ∀ c ∈ l, c ∈ lcChars) : matchNumB prev l = none := by
  have fact : ∀ c ∈ lcChars, isDigit c = false := by decide
  match l with
  | [] => rfl
  | [_] => rfl
  | [_, _] => rfl
  | [_, _, _] => rfl
  | c0 :: c1 :: c2 :: c3 :: rest =>
    exact if_neg (fun hcond => by
      have h := hcond.2.1
      rw [fact c0 (hl c0 (by simp))] at h
      exact Bool.false_ne_true h)

theorem matchNumC_none (prev l : List Char)
    (hl : ∀ c ∈ l, c ∈ lcChars) : matchNumC prev l = none := by
  have fact : ∀ c ∈ lcChars, isDigit c = false := by decide
  unfold matchNumC
  by_cases hout : (wordBoundary prev = true ∧ (!(prev.head? = some ':')) = true)
  · rw [if_pos hout]
    match l with
    | [] => rfl
    | c0 :: rest =>
      exact if_neg (fun hcond => by
        have h := hcond.1
        rw [fact c0 (hl c0 (by simp))] at h
        exact Bool.false_ne_true h)
  · rw [if_neg hout]

theorem matchSplitNumPass_none (prev l : List Char)
    (hl : ∀ c ∈ l, c ∈ lcChars) : matchSplitNumPass prev l = none := by
  unfold matchSplitNumPass
  rw [matchNumA_none l hl, matchNumB_none prev l hl, matchNumC_none prev l hl]
  rfl

theorem matchCommaDigit_none (prev l : List Char)
    (hl : ∀ c ∈ l, c ∈ lcChars) : matchCommaDigit prev l = none := by
  have fact : ∀ c ∈ lcChars, ¬(c = ',') := by decide
  match l with
  | [] => rfl
  | [_] => rfl
  | c0 :: c1 :: rest =>
    exact if_neg (fun hcond => fact c0 (hl c0 (by simp)) hcond.1)

theorem matchFlipMoney_none (prev l : List Char)
    (hl : ∀ c ∈ l, c ∈ lcChars) : matchFlipMoney prev l = none := by
  have fact : ∀ c ∈ lcChars, ¬(c = '$') ∧ ¬(c = '£') := by decide
  match l with
  | [] => rfl
  | c0 :: rest =>
    refine if_neg (fun hcond => ?_)
    rcases hcond with h | h
    · exact (fact c0 (hl c0 (by simp))).1 h
    · exact (fact c0 (hl c0 (by simp))).2 h

theorem matchPointNum_none (prev l : List Char)
    (hl : ∀ c ∈ l, c ∈ lcChars) : matchPointNum prev l = none := by
  unfold matchPointNum
  rw [matchNumA_none l hl]
  rfl

theorem matchHyphen_none (prev l : List Char)
    (hl : ∀ c ∈ l, c ∈ lcChars) : matchHyphen prev l = none := by
  have fact : ∀ c ∈ lcChars, ¬(c = '-') := by decide
  match l with
  | [] => rfl
  | [_] => rfl
  | c0 :: c1 :: rest =>
    exact if_neg (fun hcond => fact c0 (hl c0 (by simp)) hcond.1)

theorem matchDigitS_none (prev l : List Char)
    (hl : ∀ c ∈ l, c ∈ lcChars) : matchDigitS prev l = none := by
  have fact : ∀ c ∈ lcChars, ¬(c = 'S') := by decide
  match l with
  | [] => rfl
  | c0 :: rest =>
    exact if_neg (fun hcond => fact c0 (hl c0 (by simp)) hcond.1)

theorem matchApS_none (prev l : List Char)
    (hprev : ∀ c ∈ prev, c ∈ lcChars) : matchApS prev l = none := by
  have fact : ∀ c ∈ lcChars, isConsUpper c = false := by decide
  have hpc : prevConsUpper prev = false := by
    unfold prevConsUpper
    match hp : prev.head? with
    | none => rfl
    | some p => exact fact p (hprev p (List.mem_of_mem_head? hp))
  unfold matchApS
  rw [if_neg]
  rw [hpc]
  exact Bool.false_ne_true

theorem matchXS_none (prev l : List Char)
    (hl : ∀ c ∈ l, c ∈ lcChars) : matchXS prev l = none := by
  have fact : ∀ c ∈ lcChars, ¬(c = 'S') := by decide
  match l with
  | [] => rfl
  | c0 :: rest =>
    exact if_neg (fun hcond => fact c0 (hl c0 (by simp)) hcond.1)

theorem matchAcr_none (prev l : List Char)
    (hl : ∀ c ∈ l, c ∈ lcChars) : matchAcr prev l = none := by
  have fact : ∀ c ∈ lcChars, ¬(c = '.') := by decide
  have hcp : countPairs l = 0 := by
    match l with
    | [] => rfl
    | [_] => rfl
    | c0 :: c1 :: rest =>
      exact if_neg (fun hcond => fact c1 (hl c1 (by simp)) hcond.2)
  unfold matchAcr
  rw [hcp]
  rfl

theorem matchDotLetters_none (prev l : List Char)
    (hl : ∀ c ∈ l, c ∈ lcChars) : matchDotLetters prev l = none := by
  have fact : ∀ c ∈ lcChars, ¬(c = '.') := by decide
  match l with
  | [] => rfl
  | [_] => rfl
  | c0 :: c1 :: rest =>
    exact if_neg (fun hcond => fact c0 (hl c0 (by simp)) hcond.1)

/-- On clean lowercase text every pass of `normalize_text` is the
identity. -/
theorem normalize_text_id {l : List Char}
    (hall : ∀ c ∈ l, c ∈ lcChars) (hnd : noDoubleSpace l = true)
    (hh : l.head? ≠ some ' ') (hg : l.getLast? ≠ some ' ') :
    normalize_text l = l := by
  have fq : ∀ c ∈ lcChars, (c = '‘' || c = '’') = false := by decide
  have fdq : ∀ c ∈ lcChars, (c = '“' || c = '”') = false := by decide
  have fws : ∀ c ∈ lcChars, (jsIsSpace c && !(c = ' ') && !(c = '\n')) = false := by decide
  have ftrim : ∀ c ∈ lcChars, jsIsSpace c = true → c = ' ' := by decide
  have notMem : ∀ a : Char, (a ∈ lcChars → False) → a ∉ l := by
    intro a ha hm
    exact ha (hall a hm)
  simp only [normalize_text]
  rw [charClassSub_eq_self (fun c hc => fq c (hall c hc))]
  rw [charSub_eq_self (notMem '«' (by decide))]
  rw [charSub_eq_self (notMem '»' (by decide))]
  rw [charClassSub_eq_self (fun c hc => fdq c (hall c hc))]
  rw [charSub_eq_self (notMem '(' (by decide))]
  rw [charSub_eq_self (notMem ')' (by decide))]
  rw [charStrSub_eq_self (notMem '、' (by decide))]
  rw [charStrSub_eq_self (notMem '。' (by decide))]
  rw [charStrSub_eq_self (notMem '！' (by decide))]
  rw [charStrSub_eq_self (notMem '，' (by decide))]
  rw [charStrSub_eq_self (notMem '：' (by decide))]
  rw [charStrSub_eq_self (notMem '；' (by decide))]
  rw [charStrSub_eq_self (notMem '？' (by decide))]
  rw [charClassSub_eq_self (fun c hc => fws c (hall c hc))]
  rw [collapseFirst_eq_self hnd]
  rw [scanRepl_id matchLineWS (fun c => c ∈ lcChars)
    (fun p m hp _ => matchLineWS_none p m hp) l hall]
  rw [scanRepl_id matchDr (fun c => c ∈ lcChars)
    (fun p m _ hm => matchDr_none p m hm) l hall]
  rw [scanRepl_id matchMr (fun c => c ∈ lcChars)
    (fun p m _ hm => matchMr_none p m hm) l hall]
  rw [scanRepl_id matchMs (fun c => c ∈ lcChars)
    (fun p m _ hm => matchMs_none p m hm) l hall]
  rw [scanRepl_id matchMrs (fun c => c ∈ lcChars)
    (fun p m _ hm => matchMrs_none p m hm) l hall]
  rw [scanRepl_id matchEtc (fun c => c ∈ lcChars)
    (fun p m _ hm => matchEtc_none p m hm) l hall]
  rw [scanRepl_id matchYeah (fun c => c ∈ lcChars)
    (fun p m _ hm => matchYeah_none p m hm) l hall]
  rw [scanRepl_id matchSplitNumPass (fun c => c ∈ lcChars)
    (fun p m _ hm => matchSplitNumPass_none p m hm) l hall]
  rw [scanRepl_id matchCommaDigit (fun c => c ∈ lcChars)
    (fun p m _ hm => matchCommaDigit_none p m hm) l hall]
  rw [scanRepl_id matchFlipMoney (fun c => c ∈ lcChars)
    (fun p m _ hm => matchFlipMoney_none p m hm) l hall]
  rw [scanRepl_id matchPointNum (fun c => c ∈ lcChars)
    (fun p m _ hm => matchPointNum_none p m hm) l hall]
  rw [scanRepl_id matchHyphen (fun c => c ∈ lcChars)
    (fun p m _ hm => matchHyphen_none p m hm) l hall]
  rw [scanRepl_id matchDigitS (fun c => c ∈ lcChars)
    (fun p m _ hm => matchDigitS_none p m hm) l hall]
  rw [scanRepl_id matchApS (fun c => c ∈ lcChars)
    (fun p m hp _ => matchApS_none p m hp) l hall]
  rw [scanRepl_id matchXS (fun c => c ∈ lcChars)
    (fun p m _ hm => matchXS_none p m hm) l hall]
  rw [scanRepl_id matchAcr (fun c => c ∈ lcChars)
    (fun p m _ hm => matchAcr_none p m hm) l hall]
  rw [scanRepl_id matchDotLetters (fun c => c ∈ lcChars)
    (fun p m _ hm => matchDotLetters_none p m hm) l hall]
  exact trimJS_eq_self (fun c hc => ftrim c (hall c hc)) hh hg

/-- The clean class as one decidable predicate. -/
def lcClean (l : List Char) : Bool :=
  l.all (fun c => decide (c ∈ lcChars)) && noDoubleSpace l &&
    !(l.head? = some ' ') && !(l.getLast? = some ' ')

/-! ## Post-processing character lemmas (for the banned-symbol invariant) -/

@[reducible] def freeBan (c : Char) : Prop :=
  ¬(c = 'r') ∧ ¬(c = 'x') ∧ ¬(c = 'ʲ') ∧ ¬(c = 'ɬ')

theorem matchHundred_repl : ∀ prev l k r, matchHundred prev l = some (k, r) →
    ∀ c ∈ r, c = ' ' := by
  intro prev l k r h
  have hr : r = [' '] := by
    unfold matchHundred at h
    split at h
    · rw [Option.some.injEq, Prod.mk.injEq] at h
      exact h.2.symm
    · cases h
  subst hr
  intro c hc
  simpa using hc

theorem matchZ_repl : ∀ prev l k r, matchZ prev l = some (k, r) →
    ∀ c ∈ r, c = 'z' := by
  intro prev l k r h
  have hr : r = ['z'] := by
    unfold matchZ at h
    split at h
    · split at h
      · rw [Option.some.injEq, Prod.mk.injEq] at h
        exact h.2.symm
      · cases h
    · cases h
  subst hr
  intro c hc
  simpa using hc

theorem matchTi_repl : ∀ prev l k r, matchTi prev l = some (k, r) →
    ∀ c ∈ r, c = 'd' ∨ c = 'i' := by
  intro prev l k r h
  have hr : r = "di".toList := by
    unfold matchTi at h
    split at h
    · split at h
      · rw [Option.some.injEq, Prod.mk.injEq] at h
        exact h.2.symm
      · cases h
    · cases h
  subst hr
  intro c hc
  rcases List.mem_cons.mp hc with hc | hc
  · exact Or.inl hc
  · simp only [List.mem_singleton] at hc
    exact Or.inr hc

theorem postprocess_freeBan (language ps : List Char) :
    ∀ c ∈ postprocess language ps, freeBan c := by
  intro c hc
  unfold postprocess at hc
  have hc9 := trimJS_subset hc
  have step6 : ∀ (m : List Char) (c : Char),
      c ∈ charSub 'ɬ' 'l' (charSub 'x' 'k' (charSub 'r' 'ɹ' (charSub 'ʲ' 'j' m))) →
      freeBan c := by
    intro m c h6
    rcases charSub_mem h6 with ⟨h5, hne4⟩ | rfl
    · rcases charSub_mem h5 with ⟨h4, hne3⟩ | rfl
      · rcases charSub_mem h4 with ⟨h3, hne2⟩ | rfl
        · rcases charSub_mem h3 with ⟨-, hne1⟩ | rfl
          · exact ⟨hne2, hne3, hne1, hne4⟩
          · exact (by decide : freeBan 'j')
        · exact (by decide : freeBan 'ɹ')
      · exact (by decide : freeBan 'k')
    · exact (by decide : freeBan 'l')
  have free7 : ∀ (m : List Char) (c : Char),
      (∀ x ∈ m, freeBan x) → c ∈ scanRepl matchHundred m → freeBan c := by
    intro m c hm h7
    rcases scanRepl_mem matchHundred (fun x => x = ' ') matchHundred_repl m c h7 with h | h
    · exact hm c h
    · exact h ▸ (by decide : freeBan ' ')
  have free8 : ∀ (m : List Char) (c : Char),
      (∀ x ∈ m, freeBan x) → c ∈ scanRepl matchZ m → freeBan c := by
    intro m c hm h8
    rcases scanRepl_mem matchZ (fun x => x = 'z') matchZ_repl m c h8 with h | h
    · exact hm c h
    · exact h ▸ (by decide : freeBan 'z')
  have free9 : ∀ (m : List Char) (c : Char),
      (∀ x ∈ m, freeBan x) →
      c ∈ (if language = ['a'] then scanRepl matchTi m else m) → freeBan c := by
    intro m c hm h9
    by_cases hla : language = ['a']
    · rw [if_pos hla] at h9
      rcases scanRepl_mem matchTi (fun x => x = 'd' ∨ x = 'i') matchTi_repl m c h9 with h | h
      · exact hm c h
      · rcases h with rfl | rfl
        · exact (by decide : freeBan 'd')
        · exact (by decide : freeBan 'i')
    · rw [if_neg hla] at h9
      exact hm c h9
  exact free9 _ c (fun x hx => free8 _ x (fun y hy => free7 _ y (step6 _) hy) hx) hc9

/-! ## convertSections lemmas (error propagation, punctuation pass-through) -/

theorem convertSections_isSome
    (backend : List Char → List Char → Option (List (List Char))) (lang : List Char) :
    ∀ ss : List Segment, (convertSections backend lang ss).isSome = true ↔
      ∀ s ∈ ss, s.matched = false → (backend s.text lang).isSome = true := by
  intro ss
  induction ss with
  | nil => simp [convertSections]
  | cons s rest ih =>
    rw [List.forall_mem_cons, ← ih]
    constructor
    · intro h
      rcases hH : (if s.matched then some s.text else (backend s.text lang).map joinSpace)
          with _ | hv <;>
        rcases hR : convertSections backend lang rest with _ | tv
      · simp [convertSections, hH, hR] at h
      · simp [convertSections, hH, hR] at h
      · simp [convertSections, hH, hR] at h
      refine ⟨?_, by simp [hR]⟩
      intro hm
      rw [if_neg (by simp [hm])] at hH
      have : (backend s.text lang).map joinSpace ≠ none := by simp [hH]
      simpa using Option.ne_none_iff_isSome.mp (fun hbn => this (by rw [hbn]; rfl))
    · rintro ⟨h1, h2⟩
      rcases hR : convertSections backend lang rest with _ | tv
      · rw [hR] at h2; cases h2
      · by_cases hm : s.matched
        · simp [convertSections, hR, if_pos hm]
        · have hb := h1 (by simpa using hm)
          rcases Option.isSome_iff_exists.mp hb with ⟨v, hv⟩
          simp [convertSections, hR, if_neg hm, hv]

theorem occursIn_append_left (p t : List Char) : occursIn p (p ++ t) = true := by
  unfold occursIn
  have : p.isPrefixOf (p ++ t) = true := by
    rw [List.isPrefixOf_iff_prefix]
    exact List.prefix_append p t
  rw [this]
  simp

theorem occursIn_append_right (p h t : List Char) (hp : occursIn p t = true) :
    occursIn p (h ++ t) = true := by
  induction h with
  | nil => simpa using hp
  | cons c h' ih =>
    rw [List.cons_append]
    show (p.isPrefixOf (c :: (h' ++ t)) || occursIn p (h' ++ t)) = true
    rw [ih, Bool.or_true]

theorem convertSections_punct_verbatim
    (backend : List Char → List Char → Option (List (List Char))) (lang : List Char) :
    ∀ (ss : List Segment) (ps : List Char), convertSections backend lang ss = some ps →
      ∀ s ∈ ss, s.matched = true → occursIn s.text ps = true := by
  intro ss
  induction ss with
  | nil =>
    intro ps _ s hs
    cases hs
  | cons s0 rest ih =>
    intro ps h s hs hm
    rcases hH : (if s0.matched then some s0.text else (backend s0.text lang).map joinSpace)
        with _ | hv <;>
      rcases hR : convertSections backend lang rest with _ | tv <;>
      simp only [convertSections, hH, hR] at h <;> try cases h
    rcases List.mem_cons.mp hs with rfl | hs'
    · rw [if_pos hm] at hH
      rw [Option.some.injEq] at hH
      rw [← hH]
      exact occursIn_append_left _ _
    · exact occursIn_append_right _ _ _ (ih tv hR s hs' hm)

theorem convertSections_backend_congr
    (b₁ b₂ : List Char → List Char → Option (List (List Char))) (lang : List Char) :
    ∀ ss : List Segment,
      (∀ s ∈ ss, s.matched = false → b₁ s.text lang = b₂ s.text lang) →
      convertSections b₁ lang ss = convertSections b₂ lang ss := by
  intro ss
  induction ss with
  | nil => intro _; rfl
  | cons s rest ih =>
    intro h
    have hrest := ih (fun x hx hm => h x (List.mem_cons_of_mem s hx) hm)
    by_cases hm : s.matched
    · simp only [convertSections, if_pos hm, hrest]
    · have hb := h s (List.mem_cons_self s rest) (by simpa using hm)
      simp only [convertSections, if_neg hm, hb, hrest]

/-! ## Support lemmas for the corrected claims -/

theorem dropSpaces_replicate (n : Nat) (b : List Char) :
    (List.replicate n ' ' ++ b).dropWhile (fun x => x = ' ') =
      b.dropWhile (fun x => x = ' ') := by
  induction n with
  | zero => rfl
  | succ n ih =>
    rw [List.replicate_succ, List.cons_append, List.dropWhile_cons_of_pos (by simp)]
    exact ih

theorem dropSpaces_of_head (b : List Char) (hb : b.head? ≠ some ' ') :
    b.dropWhile (fun x => x = ' ') = b := by
  match b with
  | [] => rfl
  | c :: rest =>
    rw [List.dropWhile_cons_of_neg]
    intro hc
    simp only [decide_eq_true_eq] at hc
    exact hb (by rw [hc]; rfl)

/-- The collapse step (line 123) rewrites the first maximal multi-space run
to one space and leaves everything else untouched. -/
theorem collapseFirst_first_run : ∀ (a b : List Char) (n : Nat),
    noDoubleSpace a = true → a.getLast? ≠ some ' ' → b.head? ≠ some ' ' →
    collapseFirst (a ++ List.replicate (n + 2) ' ' ++ b) = a ++ ' ' :: b := by
  intro a
  induction a with
  | nil =>
    intro b n _ _ hb
    simp only [List.nil_append]
    rw [List.replicate_succ, List.replicate_succ, List.cons_append, List.cons_append]
    unfold collapseFirst
    rw [if_pos (by simp)]
    rw [List.dropWhile_cons_of_pos (by simp), dropSpaces_replicate,
      dropSpaces_of_head b hb]
  | cons c a' ih =>
    intro b n ha hae hb
    have hnd' : noDoubleSpace a' = true := by
      unfold noDoubleSpace at ha
      split at ha
      · cases ha
      · exact ha
    have hae' : a'.getLast? ≠ some ' ' := by
      match a' with
      | [] => simp
      | d :: a'' =>
        rw [List.getLast?_cons_cons] at hae
        exact hae
    have hcond : ¬(c = ' ' ∧ (a' ++ List.replicate (n + 2) ' ' ++ b).head? = some ' ') := by
      match a' with
      | [] =>
        rintro ⟨rfl, -⟩
        exact hae (by simp)
      | d :: a'' =>
        rintro ⟨hc, hd⟩
        rw [List.cons_append, List.cons_append, List.head?_cons, Option.some.injEq] at hd
        unfold noDoubleSpace at ha
        rw [if_pos ⟨hc, by rw [List.head?_cons, hd]⟩] at ha
        simp at ha
    rw [List.cons_append, List.cons_append]
    unfold collapseFirst
    rw [if_neg hcond, ih b n hnd' hae' hb, List.cons_append]

/-! ## Support lemmas for C8 (dialect fallback) and C9 (expander totality) -/

theorem langOf_notA (language : List Char) (h : ¬(language = ['a'])) :
    langOf language = langOf ['b'] := by
  unfold langOf
  rw [if_neg h, if_neg (by decide)]

theorem postprocess_notA (language : List Char) (h : ¬(language = ['a'])) :
    postprocess language = postprocess ['b'] := by
  funext ps
  simp only [postprocess]
  rw [if_neg h, if_neg (by decide : ¬((['b'] : List Char) = ['a']))]

theorem split_num_dot (m : List Char) (h : '.' ∈ m) : split_num m = m := by
  unfold split_num
  rw [if_pos h]

theorem split_num_smallYear (m : List Char) (y : Int)
    (h1 : ¬('.' ∈ m)) (h2 : ¬(':' ∈ m))
    (h3 : parseIntInt (m.take 4) = some y)
    (h4 : y < 1100 ∨ y.tmod 1000 < 10) : split_num m = m := by
  have hc : (optLt (parseIntInt (m.take 4)) 1100 ||
      optLt ((parseIntInt (m.take 4)).map (fun y => y.tmod 1000)) 10) = true := by
    rw [h3]
    rcases h4 with h | h
    · simp only [optLt, Bool.or_eq_true, decide_eq_true_eq]
      exact Or.inl h
    · simp only [optLt, Option.map_some', Bool.or_eq_true, decide_eq_true_eq]
      exact Or.inr h
  simp only [split_num]
  rw [if_neg h1, if_neg h2, if_pos hc]

/-! ## Claim theorems -/

/-- C1: for every input text and every well-formed `matchAll` result list
(ordered, non-overlapping, in-bounds matches whose text is the slice at
their index — as every JavaScript global regex produces), concatenating the
texts of the segments returned by `split` in order reproduces the input
exactly; in particular the chunking step of `phonemize` with the fixed
punctuation pattern is lossless on every text. -/
theorem C1_split_lossless :
    (∀ (text : List Char) (ms : List (Nat × List Char)),
      validMatchesFrom text 0 ms = true → joinTexts (split text ms) = text) ∧
    (∀ text : List Char, joinTexts (chunkText text) = text) := by
  constructor
  · intro text ms h
    have := splitGo_join text ms 0 h
    simpa [split] using this
  · intro text
    have hv := findRunsF_valid text (text.length + 1) text 0 rfl
    have := splitGo_join text (punctMatchAll text) 0 hv
    simpa [chunkText, split, punctMatchAll] using this

theorem C1_split_lossless_witness :
    joinTexts (split "ab, cd".toList [(2, [',', ' '])]) = "ab, cd".toList :=
  C1_split_lossless.1 "ab, cd".toList [(2, [',', ' '])] (by decide)

/-- C2 counterexample: with the identity backend, `phonemize ", z"` returns
",z": the space-before-z post-rule (line 200) deleted the trailing space of
the punctuation segment ", ", which therefore does not appear verbatim,
character for character, in the final string. -/
theorem C2_counterexample :
    chunkText (normalize_text ", z".toList) =
      [⟨true, [',', ' ']⟩, ⟨false, ['z']⟩] ∧
    phonemize (fun t _ => some [t]) ", z".toList "a".toList true =
      some ",z".toList ∧
    occursIn [',', ' '] ",z".toList = false := by decide

/-- C2 amended: punctuation segments are never passed to the backend (the
section-conversion result depends on the backend only at content-segment
texts), and every punctuation segment appears verbatim in the concatenation
of section outputs (in section order, with no added separator) before
post-processing; the post-processing may still alter it in the final
string. -/
theorem C2_amended :
    (∀ backend (lang : List Char) (ss : List Segment) (ps : List Char),
      convertSections backend lang ss = some ps →
      ∀ s ∈ ss, s.matched = true → occursIn s.text ps = true) ∧
    (∀ b₁ b₂ (lang : List Char) (ss : List Segment),
      (∀ s ∈ ss, s.matched = false → b₁ s.text lang = b₂ s.text lang) →
      convertSections b₁ lang ss = convertSections b₂ lang ss) :=
  ⟨fun backend lang ss ps h => convertSections_punct_verbatim backend lang ss ps h,
   fun b₁ b₂ lang ss h => convertSections_backend_congr b₁ b₂ lang ss h⟩

theorem C2_amended_witness : occursIn ['.'] ['.', 'q'] = true :=
  C2_amended.1 (fun t _ => some [t]) "en".toList
    [⟨true, ['.']⟩, ⟨false, ['q']⟩] ['.', 'q'] (by decide)
    ⟨true, ['.']⟩ (by decide) rfl

/-- C3: `phonemize` returns a string exactly when the backend succeeds on
every content segment; one failing segment fails the whole call with no
output at all, and if every backend call succeeds a string is returned. -/
theorem C3_failure_propagation :
    ∀ backend (text language : List Char) (norm : Bool),
      (phonemize backend text language norm).isSome = true ↔
      ∀ s ∈ chunkText (if norm then normalize_text text else text),
        s.matched = false → (backend s.text (langOf language)).isSome = true := by
  intro backend text language norm
  simp only [phonemize, Option.isSome_map']
  exact convertSections_isSome backend (langOf language) _

theorem C3_failure_propagation_witness :
    (phonemize (fun t _ => some [t]) "q".toList "a".toList true).isSome = true :=
  (C3_failure_propagation (fun t _ => some [t]) "q".toList "a".toList true).mpr
    (by decide)

/-- C4 counterexample: the collapse replacement (line 123) carries no `g`
flag, so only the first multi-space run is collapsed:
`normalize_text "a  b  c" = "a b  c"`, whose output still contains a run of
two consecutive spaces. -/
theorem C4_counterexample :
    normalize_text "a  b  c".toList = "a b  c".toList ∧
    noDoubleSpace (normalize_text "a  b  c".toList) = false := by decide

/-- C4 amended: the whitespace-collapse step of normalize collapses exactly
the first maximal run of two or more spaces to a single space and leaves the
rest of the string unchanged; later multi-space runs survive. -/
theorem C4_amended : ∀ (a b : List Char) (n : Nat),
    noDoubleSpace a = true → a.getLast? ≠ some ' ' → b.head? ≠ some ' ' →
    collapseFirst (a ++ List.replicate (n + 2) ' ' ++ b) = a ++ ' ' :: b :=
  collapseFirst_first_run

theorem C4_amended_witness :
    collapseFirst ("x".toList ++ List.replicate 2 ' ' ++ "y".toList) =
      "x".toList ++ ' ' :: "y".toList :=
  C4_amended "x".toList "y".toList 0 (by decide) (by decide) (by decide)

/-- C5 counterexample: "(a)" is free of smart quotes, CJK punctuation,
abbreviations and numerics, yet normalize is not idempotent on it: one pass
yields "«a»" (parentheses become guillemets), a second pass turns the
guillemets into straight double quotes. -/
theorem C5_counterexample :
    normalize_text "(a)".toList = "«a»".toList ∧
    normalize_text (normalize_text "(a)".toList) = "\"a\"".toList ∧
    normalize_text (normalize_text "(a)".toList) ≠ normalize_text "(a)".toList := by
  decide

/-- C5 amended: freedom from smart quotes, CJK punctuation, abbreviations
and numerics is not sufficient for idempotence (parentheses, and repeated
multi-space runs, break it); on clean text — lowercase ASCII letters other
than y, with single interior spaces — normalize is the identity and hence
idempotent. -/
theorem C5_amended : ∀ l : List Char, lcClean l = true →
    normalize_text (normalize_text l) = normalize_text l := by
  intro l h
  simp only [lcClean, Bool.and_eq_true, List.all_eq_true, decide_eq_true_eq,
    Bool.not_eq_true', decide_eq_false_iff_not] at h
  obtain ⟨⟨⟨hall, hnd⟩, hh⟩, hg⟩ := h
  have hid := normalize_text_id hall hnd hh hg
  rw [hid, hid]

theorem C5_amended_witness :
    normalize_text (normalize_text "ab cd".toList) = normalize_text "ab cd".toList :=
  C5_amended "ab cd".toList (by decide)

/-- C6: the numeric expansion maps the listed time and year inputs to
exactly the listed outputs, both for `split_num` itself and through
`normalize_text`; "1050" is returned unchanged (year below 1100) and the
boundary case "1100" is expanded (to "11 hundred"). -/
theorem C6_time_year_expansion :
    split_num "2:00".toList = "2 o'clock".toList ∧
    split_num "2:05".toList = "2 oh 5".toList ∧
    split_num "2:45".toList = "2 45".toList ∧
    split_num "1984".toList = "19 84".toList ∧
    split_num "1905".toList = "19 oh 5".toList ∧
    split_num "1900".toList = "19 hundred".toList ∧
    split_num "1050".toList = "1050".toList ∧
    split_num "1100".toList = "11 hundred".toList ∧
    normalize_text "2:00".toList = "2 o'clock".toList ∧
    normalize_text "2:05".toList = "2 oh 5".toList ∧
    normalize_text "2:45".toList = "2 45".toList ∧
    normalize_text "1984".toList = "19 84".toList ∧
    normalize_text "1905".toList = "19 oh 5".toList ∧
    normalize_text "1900".toList = "19 hundred".toList ∧
    normalize_text "1050".toList = "1050".toList ∧
    normalize_text "1100".toList = "11 hundred".toList := by decide

/-- C7: the currency and decimal expansions map the listed inputs to exactly
the listed outputs, both for the expanders themselves and through
`normalize_text`. -/
theorem C7_currency_decimal_expansion :
    flip_money "$5".toList = "5 dollars".toList ∧
    flip_money "$1".toList = "1 dollar".toList ∧
    flip_money "$5.25".toList = "5 dollars and 25 cents".toList ∧
    flip_money "£1.01".toList = "1 pound and 1 penny".toList ∧
    point_num "3.14".toList = "3 point 1 4".toList ∧
    normalize_text "$5".toList = "5 dollars".toList ∧
    normalize_text "$1".toList = "1 dollar".toList ∧
    normalize_text "$5.25".toList = "5 dollars and 25 cents".toList ∧
    normalize_text "£1.01".toList = "1 pound and 1 penny".toList ∧
    normalize_text "3.14".toList = "3 point 1 4".toList := by decide

def nineBackend : List Char → List Char → Option (List (List Char)) :=
  fun _ _ => some ["nˈaɪnti".toList]

/-- C8 counterexample: the unknown selector "z" does not fall back to the
American default: with a backend answering "nˈaɪnti", the American call
applies the ti→di rule but the "z" call does not, so the results differ. -/
theorem C8_counterexample :
    phonemize nineBackend "hi".toList "z".toList true = some "nˈaɪnti".toList ∧
    phonemize nineBackend "hi".toList "a".toList true = some "nˈaɪndi".toList ∧
    phonemize nineBackend "hi".toList "z".toList true ≠
      phonemize nineBackend "hi".toList "a".toList true := by decide

/-- C8 amended: every language argument other than "a" behaves exactly as an
explicit British "b" call — the backend receives dialect code "en" and the
American-only post rule is skipped.  Unknown selectors therefore fall back
to British behaviour, not to the documented American default. -/
theorem C8_amended : ∀ backend (text language : List Char) (norm : Bool),
    ¬(language = ['a']) →
    phonemize backend text language norm = phonemize backend text ['b'] norm := by
  intro backend text language norm h
  simp only [phonemize]
  rw [langOf_notA language h, postprocess_notA language h]

theorem C8_amended_witness :
    phonemize nineBackend "hi".toList "zz".toList true =
      phonemize nineBackend "hi".toList ['b'] true :=
  C8_amended nineBackend "hi".toList "zz".toList true (by decide)

/-- C9: the numeric expanders return the matched text unchanged when they
cannot interpret it: `split_num` passes any match containing a decimal point
through unchanged (deferring it to `point_num`), and any dot-free,
colon-free match whose leading four characters parse to a year below 1100
(or with year mod 1000 below 10) through unchanged.  Totality over arbitrary
inputs holds by construction: all pipeline functions are total Lean
functions. -/
theorem C9_expander_unchanged :
    (∀ m : List Char, '.' ∈ m → split_num m = m) ∧
    (∀ (m : List Char) (y : Int), ¬('.' ∈ m) → ¬(':' ∈ m) →
      parseIntInt (m.take 4) = some y → (y < 1100 ∨ y.tmod 1000 < 10) →
      split_num m = m) :=
  ⟨split_num_dot, split_num_smallYear⟩

theorem C9_expander_unchanged_witness :
    split_num "3.14".toList = "3.14".toList :=
  C9_expander_unchanged.1 "3.14".toList (by decide)

/-- C10: the string returned by `phonemize` never contains any of the
characters r, x, ʲ, ɬ: the four global substitutions remove them and no
later post-processing step reintroduces them. -/
theorem C10_no_banned_symbols :
    ∀ backend (text language : List Char) (norm : Bool) (out : List Char),
      phonemize backend text language norm = some out →
      ∀ c ∈ out, ¬(c = 'r') ∧ ¬(c = 'x') ∧ ¬(c = 'ʲ') ∧ ¬(c = 'ɬ') := by
  intro backend text language norm out h c hc
  simp only [phonemize] at h
  rcases Option.map_eq_some'.mp h with ⟨ps, _, hout⟩
  rw [← hout] at hc
  exact postprocess_freeBan language ps c hc

theorem C10_no_banned_symbols_witness :
    ¬('o' = 'r') ∧ ¬('o' = 'x') ∧ ¬('o' = 'ʲ') ∧ ¬('o' = 'ɬ') :=
  C10_no_banned_symbols (fun t _ => some [t]) "ok".toList "a".toList true
    "ok".toList (by decide) 'o' (by decide)
